import Mathlib

/-!
Verification development for the Utils repository.

The development shallowly embeds three parts of the sources:

* `threadpool/parallel_transform.h` — the parallel transform entry points
  (`transform`), the chunk dispenser (`Transform_Queue`) and the worker /
  join behaviour of the pool.  The header reviewed contains the entry-point
  selector and `TransformThreadPoolImpl`; the bodies of `Transform_Queue`,
  `GenericThreadPoolTmpl` and `IntegralIterator` are not part of the
  reviewed sources, so those pieces are modelled from the specification and
  are marked as such in their doc comments.  Positional iterators are
  represented by natural-number indices, input memory by a function
  `Nat → α` and output memory by a function `Nat → β`.
* `src/Trace.cc` — the `demang` backtrace symbol helper, with the
  `__cxa_demangle` collaborator abstracted as an oracle.
* `src/Malloc.hh` — the `Malloc<T>` allocation-tracking object state.
-/

namespace Threadpool

/-- Chunk of claimed work: input positions `[first, last)` are processed by
one worker and written starting at output position `out`.  Modelled from the
spec: the Chunk record of section 3 (input-start handle, input-end handle,
output-start handle), with positional handles as indices. -/
structure Chunk where
  first : Nat
  last : Nat
  out : Nat
deriving DecidableEq

/-- Number of elements in a chunk. -/
def Chunk.size (c : Chunk) : Nat := c.last - c.first

/-- Input positions covered by a chunk, in processing order. -/
def Chunk.positions (c : Chunk) : List Nat := List.range' c.first c.size

/-- Modelled from the spec: the body of `Transform_Queue` (the Chunk
Dispenser) is not part of the reviewed sources; this is its shared state per
section 3: current input cursor, end-of-range cursor, current output cursor
and the chunk-size divisor `maxpart`. -/
structure Transform_Queue where
  pos : Nat
  last : Nat
  out : Nat
  maxpart : Nat
deriving DecidableEq

/-- Modelled from the spec: the chunk-size policy of section 4.2,
`size = max(1, remaining / maxpart)`.  Natural-number division by zero is
zero, so `maxpart = 0` yields size 1, which is exactly the sentinel
"force size = 1" of the spec. -/
def chunk_size (maxpart remaining : Nat) : Nat := max 1 (remaining / maxpart)

/-- Modelled from the spec: `claim()` of section 4.2 for positional ranges.
Return Exhausted (`none`) when the cursor has reached the end, otherwise
issue the chunk `[pos, pos + size)` and advance the input and output cursors
by `size` under the lock. -/
def Transform_Queue.claim (q : Transform_Queue) : Option (Chunk × Transform_Queue) :=
  if q.last - q.pos = 0 then none
  else
    some (⟨q.pos, q.pos + chunk_size q.maxpart (q.last - q.pos), q.out⟩,
          ⟨q.pos + chunk_size q.maxpart (q.last - q.pos), q.last,
           q.out + chunk_size q.maxpart (q.last - q.pos), q.maxpart⟩)

/-- Claim up to `fuel` chunks in a row, returning the issued chunks in issue
order together with the dispenser state reached.  Since every successful
claim consumes at least one element, `fuel = last - pos` reaches exhaustion;
smaller fuels describe the intermediate states reachable mid-run. -/
def claimAll : Nat → Transform_Queue → List Chunk × Transform_Queue
  | 0, q => ([], q)
  | fuel + 1, q =>
    match q.claim with
    | none => ([], q)
    | some (c, q1) =>
      let r := claimAll fuel q1
      (c :: r.1, r.2)

/-- All chunks issued over a complete run of the dispenser. -/
def Transform_Queue.chunks (q : Transform_Queue) : List Chunk :=
  (claimAll (q.last - q.pos) q).1

/-- Dispenser state after a complete run. -/
def Transform_Queue.finalState (q : Transform_Queue) : Transform_Queue :=
  (claimAll (q.last - q.pos) q).2

/-- Modelled from the spec: `GenericThreadPoolTmpl::determine_thread_count`
is not part of the reviewed sources; per section 4.4 a negative request
probes the available hardware parallelism `hw`, any other request is used as
given. -/
def determine_thread_count (hw : Nat) (thread_count : Int) : Nat :=
  if thread_count < 0 then hw else thread_count.toNat

/-- Resolution of the `maxpart` divisor performed by `transform`
(parallel_transform.h line 186): `maxpart != 1 ? maxpart : 3 * (tc + 1)`,
where `tc` is the effective thread count.  The declaration default of
`maxpart` is 1. -/
def resolve_maxpart (tc : Nat) (maxpart : Nat) : Nat :=
  if maxpart ≠ 1 then maxpart else 3 * (tc + 1)

/-- Which execution path the entry-point selector takes and what it hands
on: `sequential` is the inline `std::transform` path; `parallel tcArg mp`
records the thread-count argument handed to the pool constructor and the
resolved divisor handed to the queue, as in parallel_transform.h
lines 180-189. -/
inductive TransformPath where
  | sequential : TransformPath
  | parallel : Int → Nat → TransformPath
deriving DecidableEq

/-- The path selection of `transform` (parallel_transform.h lines 180-187):
resolve the effective count `tc`; run inline when `tc ≤ 1`; otherwise build
the pool, passing the original `thread_count` argument and the resolved
`maxpart`. -/
def transform_path (hw : Nat) (thread_count : Int) (maxpart : Nat) : TransformPath :=
  let tc := determine_thread_count hw thread_count
  if tc ≤ 1 then TransformPath.sequential
  else TransformPath.parallel thread_count (resolve_maxpart tc maxpart)

/-- Apply a list of output writes (position, value) in order to an output
memory. -/
def applyWrites {β : Type} (ws : List (Nat × β)) (out : Nat → β) : Nat → β :=
  ws.foldl (fun o w => Function.update o w.1 w.2) out

/-- The writes a worker performs for one chunk, in input order (spec
section 4.3 step 2): output position `out + k` receives `f` of input element
`first + k`. -/
def chunkWrites {α β : Type} (input : Nat → α) (f : α → β) (c : Chunk) : List (Nat × β) :=
  (List.range c.size).map (fun k => (c.out + k, f (input (c.first + k))))

/-- The inline single-threaded path (`std::transform` at parallel_transform.h
line 182): apply `f` to `cnt` successive input elements starting at input
position `p`, writing the results at successive output positions starting at
cursor `r`; returns the final output memory and the advanced output cursor. -/
def seq_transform {α β : Type} (input : Nat → α) (f : α → β) :
    Nat → Nat → (Nat → β) → Nat → (Nat → β) × Nat
  | _, 0, out, r => (out, r)
  | p, cnt + 1, out, r =>
    seq_transform input f (p + 1) cnt (Function.update out r (f (input p))) (r + 1)

/-- The `transform` entry point (parallel_transform.h lines 174-190) over an
`n`-element positional input starting at index 0, with the output cursor
starting at `r0`.  On the parallel path the order in which the claimed
chunks' writes land is an arbitrary interleaving, represented by `sched`
(meaningful runs have `sched` a permutation of the dispenser's chunk list);
the returned cursor is the queue's final output cursor, the value of the
advanced `result` iterator returned at line 188.  Dispenser and pool
internals are modelled from the spec, their bodies being absent from the
reviewed sources. -/
def transform {α β : Type} (hw : Nat) (thread_count : Int) (maxpart : Nat)
    (input : Nat → α) (n : Nat) (f : α → β) (out : Nat → β) (r0 : Nat)
    (sched : List Chunk) : (Nat → β) × Nat :=
  let tc := determine_thread_count hw thread_count
  if tc ≤ 1 then
    seq_transform input f 0 n out r0
  else
    let q : Transform_Queue := ⟨0, n, r0, resolve_maxpart tc maxpart⟩
    (applyWrites ((sched.map (chunkWrites input f)).flatten) out, q.finalState.out)

/-- Modelled from the spec: a worker processing one chunk (section 4.3)
visits the elements in input order and stops at the first element failure,
which it reports; `none` means the whole chunk succeeded. -/
def processChunk {α β ε : Type} (input : Nat → α) (f : α → Except ε β)
    (c : Chunk) : Option ε :=
  c.positions.findSome? fun i =>
    match f (input i) with
    | Except.error e => some e
    | Except.ok _ => none

/-- Modelled from the spec: a worker's loop over the chunks it claims
(section 4.3): it stops claiming after its first failure, so the error it
captures is the first failure among its chunks in order. -/
def workerError {α β ε : Type} (input : Nat → α) (f : α → Except ε β)
    (cs : List Chunk) : Option ε :=
  cs.findSome? (processChunk input f)

/-- Modelled from the spec: the Worker Failure Slot (section 3), written at
most once, first-wins; `errs` lists the workers' captured failures in slot
serialization order. -/
def failure_slot {ε : Type} (errs : List (Option ε)) : Option ε :=
  errs.findSome? id

/-- Modelled from the spec: `join()` (section 4.3): after all workers have
stopped, re-raise the captured failure when the slot is occupied, otherwise
return normally. -/
def pool_join {ε : Type} (slot : Option ε) : Except ε Unit :=
  match slot with
  | some e => Except.error e
  | none => Except.ok ()

/-- A C++ integral type: bit width and signedness. -/
structure CType where
  bits : Nat
  signed : Bool
deriving DecidableEq

/-- Conversion of a mathematical integer to a value of a C++ integral type:
modular wrap-around, two's complement for signed types. -/
def CType.wrap (t : CType) (v : Int) : Int :=
  if t.signed then (v + 2 ^ (t.bits - 1)) % 2 ^ t.bits - 2 ^ (t.bits - 1)
  else v % 2 ^ t.bits

/-- The `std::common_type` of two integral types of at least `int` rank,
under the usual arithmetic conversions: same signedness → the wider type;
mixed signedness → the unsigned type when its width is at least the signed
width, otherwise the signed type (which then represents every value of the
unsigned one). -/
def common_type (a b : CType) : CType :=
  if a.signed = b.signed then (if b.bits ≤ a.bits then a else b)
  else if a.signed then (if a.bits ≤ b.bits then b else a)
  else (if b.bits ≤ a.bits then a else b)

/-- Modelled from the spec: `IntegralIterator` (the integer-range wrapper)
is not part of the reviewed sources; per section 4.1 it implements the
positional contract over one integer type, so traversing `[first, last)`
visits `first + k` for each `k < last - first`, in order. -/
def intTraversal (first last : Int) : List Int :=
  (List.range (last - first).toNat).map (fun k : Nat => first + (k : Int))

/-- The integer-range `transform` overload (parallel_transform.h lines
246-268): widen both bounds to their `std::common_type`, wrap them as a
synthetic positional range, and traverse.  Returns the list of integers the
element function is applied to, in traversal order. -/
def int_range_inputs (ta tb : CType) (first last : Int) : List Int :=
  intTraversal ((common_type ta tb).wrap first) ((common_type ta tb).wrap last)

end Threadpool

namespace Utils

/-- Index of the first occurrence of character `c` in `s` (the `strchr` of
Trace.cc line 107), `none` when absent. -/
def strchr (s : String) (c : Char) : Option Nat :=
  s.toList.findIdx? (· = c)

/-- The `demang` helper of Trace.cc lines 99-112.  The `__cxa_demangle`
collaborator is abstracted as the oracle `cxa`: `cxa m = none` models a
nonzero status (demangling failed), `cxa m = some name` models status 0 with
demangled output `name`.  A null `mangled_name` pointer is the `none`
input. -/
def demang (cxa : String → Option String) (mangled_name : Option String) : String :=
  match mangled_name with
  | none => ""
  | some m =>
    match cxa m with
    | none => m
    | some name =>
      match strchr name '(' with
      | none => name
      | some i => (name.toList.take i).asString

/-- The `Malloc<T>` object state (Malloc.hh lines 71-117); the raw buffer
pointer is modelled as an optional buffer, `none` for the null pointer. -/
structure Malloc (T : Type) where
  m_name : String
  m_numTotValues : Nat
  m_numTotReserved : Nat
  m_numAllocated : Nat
  m_pMalloc : Option (List T)

/-- The `Malloc` constructor (Malloc.hh lines 89-96): store the name, zero
every counter, null the pointer. -/
def Malloc.construct (T : Type) (name : String) : Malloc T :=
  ⟨name, 0, 0, 0, none⟩

/-- Member `size()` (Malloc.hh line 108). -/
def Malloc.size {T : Type} (m : Malloc T) : Nat := m.m_numTotValues

/-- Member `is_empty()` (Malloc.hh line 113). -/
def Malloc.is_empty {T : Type} (m : Malloc T) : Bool :=
  decide (m.m_numAllocated ≤ m.m_numTotValues)

end Utils


namespace Threadpool

lemma chunk_size_pos (maxpart remaining : Nat) : 1 ≤ chunk_size maxpart remaining :=
  le_max_left 1 _

lemma chunk_size_le (maxpart : Nat) {remaining : Nat} (h : 0 < remaining) :
    chunk_size maxpart remaining ≤ remaining :=
  max_le h (Nat.div_le_self remaining maxpart)

lemma claim_none_inv {q : Transform_Queue} (h : q.claim = none) : q.last - q.pos = 0 := by
  by_contra hne
  unfold Transform_Queue.claim at h
  simp [hne] at h

lemma claim_some_inv {q : Transform_Queue} {c : Chunk} {q1 : Transform_Queue}
    (h : q.claim = some (c, q1)) :
    0 < q.last - q.pos
    ∧ c.first = q.pos
    ∧ c.last = q.pos + chunk_size q.maxpart (q.last - q.pos)
    ∧ c.out = q.out
    ∧ q1.pos = q.pos + chunk_size q.maxpart (q.last - q.pos)
    ∧ q1.last = q.last
    ∧ q1.out = q.out + chunk_size q.maxpart (q.last - q.pos)
    ∧ q1.maxpart = q.maxpart := by
  unfold Transform_Queue.claim at h
  split at h
  next => simp at h
  next h0 =>
    simp only [Option.some.injEq, Prod.mk.injEq] at h
    obtain ⟨hc, hq⟩ := h
    subst hc
    subst hq
    exact ⟨by omega, rfl, rfl, rfl, rfl, rfl, rfl, rfl⟩

lemma claim_of_pos {q : Transform_Queue} (h : 0 < q.last - q.pos) :
    q.claim = some (⟨q.pos, q.pos + chunk_size q.maxpart (q.last - q.pos), q.out⟩,
      ⟨q.pos + chunk_size q.maxpart (q.last - q.pos), q.last,
       q.out + chunk_size q.maxpart (q.last - q.pos), q.maxpart⟩) := by
  unfold Transform_Queue.claim
  simp [Nat.pos_iff_ne_zero.mp h]

lemma claimAll_succ_none {q : Transform_Queue} (fuel : Nat) (h : q.claim = none) :
    claimAll (fuel + 1) q = ([], q) := by
  simp [claimAll, h]

lemma claimAll_succ_some_fst {q q1 : Transform_Queue} {c : Chunk} (fuel : Nat)
    (h : q.claim = some (c, q1)) :
    (claimAll (fuel + 1) q).1 = c :: (claimAll fuel q1).1 := by
  simp [claimAll, h]

lemma claimAll_succ_some_snd {q q1 : Transform_Queue} {c : Chunk} (fuel : Nat)
    (h : q.claim = some (c, q1)) :
    (claimAll (fuel + 1) q).2 = (claimAll fuel q1).2 := by
  simp [claimAll, h]

lemma claimAll_last (fuel : Nat) : ∀ q : Transform_Queue,
    (claimAll fuel q).2.last = q.last := by
  induction fuel with
  | zero => intro q; rfl
  | succ fuel ih =>
    intro q
    cases hc : q.claim with
    | none => rw [claimAll_succ_none fuel hc]
    | some cq =>
      obtain ⟨c, q1⟩ := cq
      rw [claimAll_succ_some_snd fuel hc]
      obtain ⟨-, -, -, -, -, h1l, -, -⟩ := claim_some_inv hc
      rw [ih q1, h1l]

lemma claimAll_partition (fuel : Nat) : ∀ q : Transform_Queue,
    ((claimAll fuel q).1.map Chunk.positions).flatten
      ++ List.range' (claimAll fuel q).2.pos (q.last - (claimAll fuel q).2.pos)
    = List.range' q.pos (q.last - q.pos) := by
  induction fuel with
  | zero => intro q; simp [claimAll]
  | succ fuel ih =>
    intro q
    cases hc : q.claim with
    | none => rw [claimAll_succ_none fuel hc]; simp
    | some cq =>
      obtain ⟨c, q1⟩ := cq
      rw [claimAll_succ_some_fst fuel hc, claimAll_succ_some_snd fuel hc]
      obtain ⟨hrem, hcf, hcl, -, h1p, h1l, -, -⟩ := claim_some_inv hc
      have hsle : chunk_size q.maxpart (q.last - q.pos) ≤ q.last - q.pos :=
        chunk_size_le q.maxpart hrem
      have hppos : c.positions = List.range' q.pos (chunk_size q.maxpart (q.last - q.pos)) := by
        unfold Chunk.positions Chunk.size
        rw [hcf, hcl]
        congr 1
        omega
      rw [List.map_cons, List.flatten_cons, List.append_assoc]
      have ihq1 := ih q1
      rw [h1l] at ihq1
      rw [ihq1, hppos, h1p, List.range'_append_1]
      congr 1
      omega

lemma claimAll_out_offset (fuel : Nat) : ∀ q : Transform_Queue,
    (claimAll fuel q).2.out + q.pos = q.out + (claimAll fuel q).2.pos := by
  induction fuel with
  | zero => intro q; rfl
  | succ fuel ih =>
    intro q
    cases hc : q.claim with
    | none => rw [claimAll_succ_none fuel hc]
    | some cq =>
      obtain ⟨c, q1⟩ := cq
      rw [claimAll_succ_some_snd fuel hc]
      obtain ⟨-, -, -, -, h1p, -, h1o, -⟩ := claim_some_inv hc
      have := ih q1
      omega

lemma claimAll_pos_le (fuel : Nat) : ∀ q : Transform_Queue, q.pos ≤ q.last →
    (claimAll fuel q).2.pos ≤ q.last := by
  induction fuel with
  | zero => intro q h; exact h
  | succ fuel ih =>
    intro q h
    cases hc : q.claim with
    | none => rw [claimAll_succ_none fuel hc]; exact h
    | some cq =>
      obtain ⟨c, q1⟩ := cq
      rw [claimAll_succ_some_snd fuel hc]
      obtain ⟨hrem, -, -, -, h1p, h1l, -, -⟩ := claim_some_inv hc
      have hsle : chunk_size q.maxpart (q.last - q.pos) ≤ q.last - q.pos :=
        chunk_size_le q.maxpart hrem
      have h1 : q1.pos ≤ q1.last := by omega
      have := ih q1 h1
      omega

lemma claimAll_complete (fuel : Nat) : ∀ q : Transform_Queue, q.last - q.pos ≤ fuel →
    q.last - (claimAll fuel q).2.pos = 0 := by
  induction fuel with
  | zero => intro q h; simpa [claimAll] using h
  | succ fuel ih =>
    intro q h
    cases hc : q.claim with
    | none => rw [claimAll_succ_none fuel hc]; exact claim_none_inv hc
    | some cq =>
      obtain ⟨c, q1⟩ := cq
      rw [claimAll_succ_some_snd fuel hc]
      obtain ⟨hrem, -, -, -, h1p, h1l, -, -⟩ := claim_some_inv hc
      have hspos : 1 ≤ chunk_size q.maxpart (q.last - q.pos) := chunk_size_pos _ _
      have h1 : q1.last - q1.pos ≤ fuel := by omega
      have := ih q1 h1
      omega

end Threadpool

namespace Threadpool

lemma chunks_flatten (q : Transform_Queue) :
    (q.chunks.map Chunk.positions).flatten = List.range' q.pos (q.last - q.pos) := by
  have hpart := claimAll_partition (q.last - q.pos) q
  have hcomp := claimAll_complete (q.last - q.pos) q (le_refl _)
  unfold Transform_Queue.chunks
  rw [hcomp] at hpart
  simpa using hpart

lemma claimAll_chunk_facts (fuel : Nat) : ∀ q : Transform_Queue,
    ∀ c ∈ (claimAll fuel q).1,
      c.out + q.pos = q.out + c.first ∧ q.pos ≤ c.first ∧ c.last ≤ q.last := by
  induction fuel with
  | zero => intro q c hc; simp [claimAll] at hc
  | succ fuel ih =>
    intro q c hc
    cases hcl : q.claim with
    | none => rw [claimAll_succ_none fuel hcl] at hc; simp at hc
    | some cq =>
      obtain ⟨c0, q1⟩ := cq
      rw [claimAll_succ_some_fst fuel hcl] at hc
      obtain ⟨hrem, hcf, hclast, hco, h1p, h1l, h1o, -⟩ := claim_some_inv hcl
      have hsle : chunk_size q.maxpart (q.last - q.pos) ≤ q.last - q.pos :=
        chunk_size_le q.maxpart hrem
      rcases List.mem_cons.mp hc with hhd | htl
      · subst hhd
        refine ⟨by omega, by omega, by omega⟩
      · obtain ⟨ho, hf, hl⟩ := ih q1 c htl
        refine ⟨by omega, by omega, by omega⟩

lemma claimAll_size_one (fuel : Nat) : ∀ q : Transform_Queue, q.maxpart = 0 →
    ∀ c ∈ (claimAll fuel q).1, c.size = 1 := by
  induction fuel with
  | zero => intro q h0 c hc; simp [claimAll] at hc
  | succ fuel ih =>
    intro q h0 c hc
    cases hcl : q.claim with
    | none => rw [claimAll_succ_none fuel hcl] at hc; simp at hc
    | some cq =>
      obtain ⟨c0, q1⟩ := cq
      rw [claimAll_succ_some_fst fuel hcl] at hc
      obtain ⟨hrem, hcf, hclast, -, -, -, -, h1m⟩ := claim_some_inv hcl
      rcases List.mem_cons.mp hc with hhd | htl
      · subst hhd
        unfold Chunk.size
        rw [hcf, hclast, h0]
        unfold chunk_size
        simp
      · exact ih q1 (by rw [h1m, h0]) c htl

lemma finalState_out (q : Transform_Queue) (h : q.pos ≤ q.last) :
    q.finalState.out = q.out + (q.last - q.pos) := by
  unfold Transform_Queue.finalState
  have hoff := claimAll_out_offset (q.last - q.pos) q
  have hcomp := claimAll_complete (q.last - q.pos) q (le_refl _)
  have hple := claimAll_pos_le (q.last - q.pos) q h
  omega

end Threadpool

namespace Threadpool

lemma applyWrites_cons {β : Type} (k : Nat) (v : β) (ws : List (Nat × β)) (out : Nat → β) :
    applyWrites ((k, v) :: ws) out = applyWrites ws (Function.update out k v) := rfl

lemma applyWrites_not_mem {β : Type} (ws : List (Nat × β)) (k : Nat)
    (h : k ∉ ws.map Prod.fst) : ∀ out : Nat → β, applyWrites ws out k = out k := by
  induction ws with
  | nil => intro out; rfl
  | cons a ws ih =>
    intro out
    simp only [List.map_cons, List.mem_cons, not_or] at h
    obtain ⟨a1, a2⟩ := a
    rw [applyWrites_cons, ih h.2, Function.update_noteq h.1]

lemma applyWrites_mem {β : Type} (ws : List (Nat × β)) (k : Nat) (v : β)
    (hmem : (k, v) ∈ ws) (hnd : (ws.map Prod.fst).Nodup) :
    ∀ out : Nat → β, applyWrites ws out k = v := by
  induction ws with
  | nil => simp at hmem
  | cons a ws ih =>
    intro out
    obtain ⟨a1, a2⟩ := a
    rw [List.map_cons, List.nodup_cons] at hnd
    rcases List.mem_cons.mp hmem with hhd | htl
    · injection hhd with hk hv
      subst hk
      subst hv
      rw [applyWrites_cons, applyWrites_not_mem ws k hnd.1, Function.update_same]
    · rw [applyWrites_cons]
      exact ih htl hnd.2 _

lemma applyWrites_perm {β : Type} (ws1 ws2 : List (Nat × β)) (out : Nat → β)
    (hp : ws1.Perm ws2) (hnd : (ws1.map Prod.fst).Nodup) :
    applyWrites ws1 out = applyWrites ws2 out := by
  unfold applyWrites
  refine hp.foldl_eq' ?_ out
  intro x hx y hy z
  by_cases hxy : x = y
  · subst hxy; rfl
  · have hk : x.1 ≠ y.1 := fun hk => hxy (List.inj_on_of_nodup_map hnd hx hy hk)
    exact Function.update_comm hk x.2 y.2 z

lemma chunkWrites_eq_map {α β : Type} (input : Nat → α) (f : α → β) (c : Chunk) (r0 : Nat)
    (h : c.out = r0 + c.first) :
    chunkWrites input f c = c.positions.map (fun i => (r0 + i, f (input i))) := by
  unfold chunkWrites Chunk.positions
  rw [List.range'_eq_map_range, List.map_map]
  refine List.map_congr_left ?_
  intro k _
  simp only [Function.comp_apply]
  rw [h]
  congr 1
  omega

lemma chunks_writes_flatten {α β : Type} (input : Nat → α) (f : α → β) (n r0 mp : Nat) :
    ((Transform_Queue.chunks ⟨0, n, r0, mp⟩).map (chunkWrites input f)).flatten
      = (List.range' 0 n).map (fun i => (r0 + i, f (input i))) := by
  have hoff : ∀ c ∈ Transform_Queue.chunks ⟨0, n, r0, mp⟩, c.out = r0 + c.first := by
    intro c hc
    have := (claimAll_chunk_facts n ⟨0, n, r0, mp⟩ c (by simpa [Transform_Queue.chunks] using hc)).1
    simpa using this
  have hmap : (Transform_Queue.chunks ⟨0, n, r0, mp⟩).map (chunkWrites input f)
      = (Transform_Queue.chunks ⟨0, n, r0, mp⟩).map
          (fun c => c.positions.map (fun i => (r0 + i, f (input i)))) :=
    List.map_congr_left (fun c hc => chunkWrites_eq_map input f c r0 (hoff c hc))
  rw [hmap]
  have hcomp : (Transform_Queue.chunks ⟨0, n, r0, mp⟩).map
      (fun c => c.positions.map (fun i => (r0 + i, f (input i))))
      = ((Transform_Queue.chunks ⟨0, n, r0, mp⟩).map Chunk.positions).map
          (List.map (fun i => (r0 + i, f (input i)))) := by
    rw [List.map_map]
    rfl
  rw [hcomp, ← List.map_flatten, chunks_flatten]
  simp

lemma canonical_keys_nodup {β : Type} (n r0 : Nat) (g : Nat → β) :
    (((List.range' 0 n).map (fun i => (r0 + i, g i))).map Prod.fst).Nodup := by
  rw [List.map_map]
  have : (Prod.fst ∘ fun i => ((r0 + i : Nat), g i)) = fun i => r0 + i := rfl
  rw [this]
  exact (List.nodup_range' 0 n).map (fun a b h => by omega)

lemma canonical_eval {β : Type} (n r0 : Nat) (g : Nat → β) (out : Nat → β)
    (i : Nat) (hi : i < n) :
    applyWrites ((List.range' 0 n).map (fun j => (r0 + j, g j))) out (r0 + i) = g i := by
  refine applyWrites_mem _ _ _ ?_ (canonical_keys_nodup n r0 g) out
  exact List.mem_map.mpr ⟨i, by simp [List.mem_range'_1, hi], rfl⟩

lemma seq_transform_snd {α β : Type} (input : Nat → α) (f : α → β) :
    ∀ (cnt p : Nat) (out : Nat → β) (r : Nat),
      (seq_transform input f p cnt out r).2 = r + cnt := by
  intro cnt
  induction cnt with
  | zero => intro p out r; rfl
  | succ cnt ih =>
    intro p out r
    unfold seq_transform
    rw [ih]
    omega

lemma seq_transform_frame {α β : Type} (input : Nat → α) (f : α → β) :
    ∀ (cnt p : Nat) (out : Nat → β) (r k : Nat), k < r →
      (seq_transform input f p cnt out r).1 k = out k := by
  intro cnt
  induction cnt with
  | zero => intro p out r k _; rfl
  | succ cnt ih =>
    intro p out r k hk
    unfold seq_transform
    rw [ih (p + 1) _ (r + 1) k (by omega), Function.update_noteq (by omega)]

lemma seq_transform_eval {α β : Type} (input : Nat → α) (f : α → β) :
    ∀ (cnt p : Nat) (out : Nat → β) (r j : Nat), j < cnt →
      (seq_transform input f p cnt out r).1 (r + j) = f (input (p + j)) := by
  intro cnt
  induction cnt with
  | zero => intro p out r j hj; omega
  | succ cnt ih =>
    intro p out r j hj
    unfold seq_transform
    cases j with
    | zero =>
      have h1 := seq_transform_frame input f cnt (p + 1)
        (Function.update out r (f (input p))) (r + 1) r (by omega)
      simpa [Function.update_same] using h1
    | succ j =>
      have hr : r + (j + 1) = (r + 1) + j := by omega
      have hp : p + (j + 1) = (p + 1) + j := by omega
      rw [hr, hp, ih (p + 1) _ (r + 1) j (by omega)]

end Threadpool

namespace Threadpool

lemma intTraversal_length (lo hi : Int) : (intTraversal lo hi).length = (hi - lo).toNat := by
  rw [intTraversal, List.length_map, List.length_range]

lemma intTraversal_mem (lo hi : Int) (h : lo ≤ hi) (i : Int) :
    i ∈ intTraversal lo hi ↔ lo ≤ i ∧ i < hi := by
  unfold intTraversal
  rw [List.mem_map]
  constructor
  · rintro ⟨k, hk, rfl⟩
    rw [List.mem_range] at hk
    omega
  · rintro ⟨h1, h2⟩
    refine ⟨(i - lo).toNat, ?_, ?_⟩
    · rw [List.mem_range]; omega
    · omega

lemma intTraversal_nodup (lo hi : Int) : (intTraversal lo hi).Nodup := by
  unfold intTraversal
  refine List.Nodup.map ?_ (List.nodup_range _)
  intro x y hxy
  dsimp at hxy
  omega

lemma intTraversal_count (lo hi : Int) (h : lo ≤ hi) (i : Int) :
    (intTraversal lo hi).count i = if lo ≤ i ∧ i < hi then 1 else 0 := by
  split
  next hmem =>
    exact List.count_eq_one_of_mem (intTraversal_nodup lo hi)
      ((intTraversal_mem lo hi h i).mpr hmem)
  next hmem =>
    exact List.count_eq_zero.mpr (fun hin => hmem ((intTraversal_mem lo hi h i).mp hin))

end Threadpool

namespace Utils

lemma take_findIdx_eq_takeWhile (c : Char) : ∀ l : List Char,
    (l.findIdx? (· = c) = none → l.takeWhile (fun ch => ch ≠ c) = l)
    ∧ ∀ i, l.findIdx? (· = c) = some i →
        l.take i = l.takeWhile (fun ch => ch ≠ c) := by
  intro l
  induction l with
  | nil => exact ⟨fun _ => rfl, fun i h => by simp [List.findIdx?] at h⟩
  | cons x xs ih =>
    by_cases hx : x = c
    · refine ⟨fun h => ?_, fun i h => ?_⟩
      · rw [List.findIdx?_cons] at h
        simp [hx] at h
      · rw [List.findIdx?_cons] at h
        simp [hx] at h
        subst h
        simp [List.takeWhile_cons, hx]
    · refine ⟨fun h => ?_, fun i h => ?_⟩
      · rw [List.findIdx?_cons, if_neg (by simp [hx]), List.findIdx?_succ] at h
        have hxs : xs.findIdx? (· = c) = none := by
          cases hfind : xs.findIdx? (· = c) with
          | none => rfl
          | some j => rw [hfind] at h; simp at h
        rw [List.takeWhile_cons, if_pos (by simp [hx]), ih.1 hxs]
      · rw [List.findIdx?_cons, if_neg (by simp [hx]), List.findIdx?_succ] at h
        cases hfind : xs.findIdx? (· = c) with
        | none => rw [hfind] at h; simp at h
        | some j =>
          rw [hfind] at h
          simp only [Option.map_some'] at h
          injection h with h
          subst h
          rw [List.take_succ_cons, List.takeWhile_cons, if_pos (by simp [hx]), ih.2 j hfind]

end Utils

namespace Utils

/-- C10: for every name string, a freshly constructed `Malloc` holds no
memory — null internal pointer and zero counters — and satisfies both
`size() = 0` and `is_empty() = true`. -/
theorem malloc_fresh_state (T : Type) (name : String) :
    (Malloc.construct T name).m_pMalloc = none
    ∧ (Malloc.construct T name).m_numTotValues = 0
    ∧ (Malloc.construct T name).m_numTotReserved = 0
    ∧ (Malloc.construct T name).m_numAllocated = 0
    ∧ (Malloc.construct T name).size = 0
    ∧ (Malloc.construct T name).is_empty = true :=
  ⟨rfl, rfl, rfl, rfl, rfl, rfl⟩

/-- C9: `demang` returns the empty string when its argument is a null
pointer; when `__cxa_demangle` reports failure it returns the mangled input
unchanged; and on success it returns the demangled name truncated at the
first left parenthesis when one is present (the whole demangled name
otherwise, which the `takeWhile` form covers uniformly). -/
theorem demang_spec (cxa : String → Option String) (m : String) :
    demang cxa none = ""
    ∧ (cxa m = none → demang cxa (some m) = m)
    ∧ ∀ name, cxa m = some name →
        demang cxa (some m) = (name.toList.takeWhile (fun ch => ch ≠ '(')).asString := by
  refine ⟨rfl, fun h => by simp [demang, h], fun name h => ?_⟩
  cases hidx : strchr name '(' with
  | none =>
    have h1 : demang cxa (some m) = name := by simp [demang, h, hidx]
    have hidx2 : name.toList.findIdx? (· = '(') = none := by
      unfold strchr at hidx
      exact hidx
    rw [h1, (take_findIdx_eq_takeWhile '(' name.toList).1 hidx2,
      String.asString_toList]
  | some i =>
    have h1 : demang cxa (some m) = (name.toList.take i).asString := by
      simp [demang, h, hidx]
    have hidx2 : name.toList.findIdx? (· = '(') = some i := by
      unfold strchr at hidx
      exact hidx
    rw [h1, (take_findIdx_eq_takeWhile '(' name.toList).2 i hidx2]

/-- Closed instance of `demang_spec`: a concrete oracle that demangles
"_Z1fv" to "f(int)"; the result is truncated to "f". -/
theorem demang_spec_witness :
    (fun s => if s = "_Z1fv" then some "f(int)" else none) "_Z1fv" = some "f(int)"
    ∧ demang (fun s => if s = "_Z1fv" then some "f(int)" else none) (some "_Z1fv") = "f" := by
  refine ⟨by decide, ?_⟩
  have h := (demang_spec (fun s => if s = "_Z1fv" then some "f(int)" else none)
    "_Z1fv").2.2 "f(int)" (by decide)
  rw [h]
  decide

end Utils

namespace Threadpool

/-- C5 counterexample: with effective thread count 4 a caller-supplied
`maxpart` of 1 resolves to 3 * (4 + 1) = 15, not to 1, refuting the claim
that every caller-supplied positive integer including 1 is used as the
divisor itself. -/
theorem maxpart_one_counterexample :
    resolve_maxpart 4 1 = 15 ∧ resolve_maxpart 4 1 ≠ 1 := by decide

/-- C5 (amended): the divisor resolves as follows: 0 is passed through
unchanged (and the dispenser then forces single-element chunks); 1 — the
declaration default, indistinguishable from an unset argument — resolves to
3 * (effective_thread_count + 1); every caller-supplied integer of at least
2 is used as the divisor itself. -/
theorem maxpart_resolution (tc : Nat) :
    resolve_maxpart tc 0 = 0
    ∧ (∀ r, 0 < r → chunk_size 0 r = 1)
    ∧ resolve_maxpart tc 1 = 3 * (tc + 1)
    ∧ ∀ m, 2 ≤ m → resolve_maxpart tc m = m := by
  refine ⟨rfl, fun r hr => ?_, rfl, fun m hm => ?_⟩
  · unfold chunk_size
    rw [Nat.div_zero]
    omega
  · unfold resolve_maxpart
    rw [if_pos (by omega)]

/-- Closed instance of `maxpart_resolution` at concrete inputs. -/
theorem maxpart_resolution_witness :
    chunk_size 0 5 = 1 ∧ resolve_maxpart 4 7 = 7 :=
  ⟨(maxpart_resolution 4).2.1 5 (by decide), (maxpart_resolution 4).2.2.2 7 (by decide)⟩

/-- C7 counterexample: with 4 hardware threads and the default request of
-1 the parallel path is chosen, yet the value handed to the pool constructor
is the raw -1 sentinel — not the resolved effective count 4 and not
positive. -/
theorem pool_thread_count_counterexample :
    transform_path 4 (-1) 1 = TransformPath.parallel (-1) 15
    ∧ determine_thread_count 4 (-1) = 4
    ∧ (-1 : Int) ≠ 4
    ∧ ¬ (0 : Int) < -1 := by decide

/-- C7 (amended): whenever the selector chooses the parallel path, the value
handed to the pool constructor is the caller's raw `thread_count` argument,
which on that path is either greater than 1 or a negative auto-detect
sentinel; only when the caller explicitly requested more than one thread is
it the resolved effective count (and positive) — a negative sentinel is
handed through unresolved. -/
theorem pool_thread_count_argument (hw : Nat) (tcv : Int) (mp : Nat) (p : Int) (m : Nat)
    (h : transform_path hw tcv mp = TransformPath.parallel p m) :
    p = tcv
    ∧ (tcv < 0 ∨ 1 < tcv)
    ∧ (1 < tcv → 0 < p ∧ p = (determine_thread_count hw tcv : Int)) := by
  simp only [transform_path] at h
  by_cases h1 : determine_thread_count hw tcv ≤ 1
  · rw [if_pos h1] at h
    exact absurd h (by simp)
  · rw [if_neg h1] at h
    injection h with hp hm
    subst hp
    subst hm
    refine ⟨rfl, ?_, fun h2 => ⟨by omega, ?_⟩⟩
    · unfold determine_thread_count at h1
      by_cases hneg : tcv < 0
      · exact Or.inl hneg
      · rw [if_neg hneg] at h1
        right
        omega
    · unfold determine_thread_count
      rw [if_neg (by omega)]
      omega

/-- Closed instance of `pool_thread_count_argument`: an explicit request of
8 threads is handed through as 8, which is positive and equals the resolved
count. -/
theorem pool_thread_count_argument_witness :
    transform_path 4 8 1 = TransformPath.parallel 8 27
    ∧ ((8 : Int) < 0 ∨ 1 < (8 : Int))
    ∧ (0 : Int) < 8 := by
  refine ⟨by decide, (pool_thread_count_argument 4 8 1 8 27 (by decide)).2.1, ?_⟩
  exact ((pool_thread_count_argument 4 8 1 8 27 (by decide)).2.2 (by decide)).1

/-- C8: the integer-range `transform` widens both bounds to their common
type before wrapping them as a synthetic positional range; when the widened
first bound is at most the widened last bound, the traversal performs
exactly last - first steps and applies the element function to each integer
of the widened half-open interval exactly once. -/
theorem int_range_widening (ta tb : CType) (first last : Int)
    (h : (common_type ta tb).wrap first ≤ (common_type ta tb).wrap last) :
    (int_range_inputs ta tb first last).length
      = ((common_type ta tb).wrap last - (common_type ta tb).wrap first).toNat
    ∧ ∀ i : Int, (int_range_inputs ta tb first last).count i
        = if (common_type ta tb).wrap first ≤ i ∧ i < (common_type ta tb).wrap last
          then 1 else 0 :=
  ⟨intTraversal_length _ _, fun i => intTraversal_count _ _ h i⟩

/-- Closed instance of `int_range_widening`: a signed 32-bit first bound 0
paired with an unsigned 64-bit last bound 10 widens to the unsigned 64-bit
type and traverses exactly 10 integers. -/
theorem int_range_widening_witness :
    (common_type ⟨32, true⟩ ⟨64, false⟩).wrap 0 ≤ (common_type ⟨32, true⟩ ⟨64, false⟩).wrap 10
    ∧ (int_range_inputs ⟨32, true⟩ ⟨64, false⟩ 0 10).length = 10 := by
  refine ⟨by decide, ?_⟩
  have h := (int_range_widening ⟨32, true⟩ ⟨64, false⟩ 0 10 (by decide)).1
  rw [h]
  decide

end Threadpool

namespace Threadpool

/-- C6: whenever the remaining unclaimed count is positive, `claim()`
succeeds and issues a chunk of exactly max(1, remaining / maxpart) elements;
in particular with maxpart = 0 every chunk claimed over the whole run has
exactly one element. -/
theorem claim_chunk_size_policy (q : Transform_Queue) :
    (0 < q.last - q.pos → ∃ c q1, q.claim = some (c, q1))
    ∧ (∀ c q1, q.claim = some (c, q1) → c.size = max 1 ((q.last - q.pos) / q.maxpart))
    ∧ (q.maxpart = 0 → ∀ c ∈ q.chunks, c.size = 1) := by
  refine ⟨fun h => ⟨_, _, claim_of_pos h⟩, fun c q1 h => ?_, fun h0 c hc => ?_⟩
  · obtain ⟨hrem, hcf, hcl, -, -, -, -, -⟩ := claim_some_inv h
    unfold chunk_size at hcl
    unfold Chunk.size
    omega
  · exact claimAll_size_one (q.last - q.pos) q h0 c
      (by simpa [Transform_Queue.chunks] using hc)

/-- Closed instance of `claim_chunk_size_policy` at concrete dispenser
states. -/
theorem claim_chunk_size_policy_witness :
    (∃ c q1, Transform_Queue.claim ⟨0, 6, 0, 3⟩ = some (c, q1))
    ∧ Chunk.size ⟨0, 2, 0⟩ = max 1 ((6 - 0) / 3)
    ∧ Chunk.size ⟨1, 2, 1⟩ = 1 := by
  refine ⟨(claim_chunk_size_policy ⟨0, 6, 0, 3⟩).1 (by decide), ?_, ?_⟩
  · exact (claim_chunk_size_policy ⟨0, 6, 0, 3⟩).2.1 ⟨0, 2, 0⟩ ⟨2, 6, 2, 3⟩ (by decide)
  · exact (claim_chunk_size_policy ⟨0, 2, 0, 0⟩).2.2 rfl ⟨1, 2, 1⟩ (by decide)

/-- C2: at every dispenser state reachable by a sequence of claims (any
prefix length `fuel` of the claim sequence — claims are serialized under the
dispenser lock, so these are exactly the states reachable under any
interleaving), the chunks issued so far followed by the remaining unclaimed
range exactly partition the original range; over a complete run every input
position of the range is covered by exactly one issued chunk, with no
overlap and no gap. -/
theorem dispenser_partition_invariant (q : Transform_Queue) (fuel : Nat) :
    ((claimAll fuel q).1.map Chunk.positions).flatten
        ++ List.range' (claimAll fuel q).2.pos (q.last - (claimAll fuel q).2.pos)
      = List.range' q.pos (q.last - q.pos)
    ∧ ∀ i : Nat, (q.chunks.map Chunk.positions).flatten.count i
        = if q.pos ≤ i ∧ i < q.last then 1 else 0 := by
  refine ⟨claimAll_partition fuel q, fun i => ?_⟩
  rw [chunks_flatten]
  by_cases hi : q.pos ≤ i ∧ i < q.last
  · rw [if_pos hi]
    refine List.count_eq_one_of_mem (List.nodup_range' _ _) ?_
    rw [List.mem_range'_1]
    omega
  · rw [if_neg hi]
    refine List.count_eq_zero.mpr ?_
    rw [List.mem_range'_1]
    omega

/-- C4: for every input range of `n` elements, `transform` returns the
output cursor advanced exactly `n` positions past its starting value, on
both the sequential path and the parallel path; in particular for `n = 0`
the cursor is returned unchanged. -/
theorem transform_returns_advanced_output {α β : Type} (hw : Nat) (tcv : Int)
    (mp : Nat) (input : Nat → α) (n : Nat) (f : α → β) (out : Nat → β) (r0 : Nat)
    (sched : List Chunk) :
    (transform hw tcv mp input n f out r0 sched).2 = r0 + n := by
  by_cases h : determine_thread_count hw tcv ≤ 1
  · simp only [transform, if_pos h]
    exact seq_transform_snd input f n 0 out r0
  · simp only [transform, if_neg h]
    have hfo := finalState_out
      ⟨0, n, r0, resolve_maxpart (determine_thread_count hw tcv) mp⟩ (by simp)
    rw [hfo]
    simp

/-- C1: for a deterministic, side-effect-free element function, `transform`
invoked with any requested thread count greater than 1 — under an arbitrary
interleaving of chunk completions, represented by an arbitrary permutation
`sched` of the dispenser's chunk sequence — and `transform` invoked with
thread_count = 1 produce identical output sequences: output position i holds
`f` of input element i in both runs. -/
theorem transform_thread_count_equivalence {α β : Type} (hw : Nat) (tcv : Int)
    (mp : Nat) (input : Nat → α) (n : Nat) (f : α → β) (out : Nat → β) (r0 : Nat)
    (sched : List Chunk) (htc : 1 < tcv)
    (hs : sched.Perm (Transform_Queue.chunks
        ⟨0, n, r0, resolve_maxpart (determine_thread_count hw tcv) mp⟩)) :
    ∀ i, i < n →
      (transform hw tcv mp input n f out r0 sched).1 (r0 + i) = f (input i)
      ∧ (transform hw 1 mp input n f out r0 []).1 (r0 + i) = f (input i) := by
  intro i hi
  constructor
  · have hnle : ¬ determine_thread_count hw tcv ≤ 1 := by
      unfold determine_thread_count
      rw [if_neg (by omega)]
      omega
    simp only [transform, if_neg hnle]
    have hperm : ((sched.map (chunkWrites input f)).flatten).Perm
        (((Transform_Queue.chunks
            ⟨0, n, r0, resolve_maxpart (determine_thread_count hw tcv) mp⟩).map
          (chunkWrites input f)).flatten) :=
      (hs.map _).flatten
    have hcanon := chunks_writes_flatten input f n r0
      (resolve_maxpart (determine_thread_count hw tcv) mp)
    have hnd : (((sched.map (chunkWrites input f)).flatten).map Prod.fst).Nodup := by
      refine (List.Perm.nodup_iff (hperm.map Prod.fst)).mpr ?_
      rw [hcanon]
      exact canonical_keys_nodup n r0 (fun j => f (input j))
    rw [applyWrites_perm _ _ out hperm hnd, hcanon]
    exact canonical_eval n r0 (fun j => f (input j)) out i hi
  · have hle : determine_thread_count hw 1 ≤ 1 := by
      unfold determine_thread_count
      norm_num
    simp only [transform, if_pos hle]
    have h := seq_transform_eval input f n 0 out r0 i hi
    simpa using h

/-- Closed instance of `transform_thread_count_equivalence`: 3 elements,
doubling function, requested thread count 2, chunks delivered in reversed
order; output position 1 (cursor base 5) holds the doubled element in both
runs. -/
theorem transform_thread_count_equivalence_witness :
    1 < (2 : Int)
    ∧ (Transform_Queue.chunks
        ⟨0, 3, 5, resolve_maxpart (determine_thread_count 4 2) 1⟩).reverse.Perm
        (Transform_Queue.chunks ⟨0, 3, 5, resolve_maxpart (determine_thread_count 4 2) 1⟩)
    ∧ (transform 4 2 1 (fun j => j) 3 (fun a => a * 2) (fun _ => 0) 5
        (Transform_Queue.chunks
          ⟨0, 3, 5, resolve_maxpart (determine_thread_count 4 2) 1⟩).reverse).1 (5 + 1) = 2
    ∧ (transform 4 1 1 (fun j => j) 3 (fun a => a * 2) (fun _ => 0) 5 []).1 (5 + 1) = 2 := by
  have h := transform_thread_count_equivalence 4 2 1 (fun j => j) 3 (fun a => a * 2)
    (fun _ => 0) 5
    (Transform_Queue.chunks ⟨0, 3, 5, resolve_maxpart (determine_thread_count 4 2) 1⟩).reverse
    (by decide) (by decide) 1 (by decide)
  exact ⟨by decide, by decide, h.1, h.2⟩

end Threadpool

namespace Threadpool

lemma processChunk_eq_none_iff {α β ε : Type} (input : Nat → α) (f : α → Except ε β)
    (c : Chunk) :
    processChunk input f c = none ↔ ∀ i ∈ c.positions, ∃ b, f (input i) = Except.ok b := by
  unfold processChunk
  rw [List.findSome?_eq_none_iff]
  constructor
  · intro h i hi
    have hii := h i hi
    cases hfi : f (input i) with
    | error e => rw [hfi] at hii; simp at hii
    | ok b => exact ⟨b, rfl⟩
  · intro h i hi
    obtain ⟨b, hb⟩ := h i hi
    rw [hb]

lemma workerError_eq_none_iff {α β ε : Type} (input : Nat → α) (f : α → Except ε β)
    (cs : List Chunk) :
    workerError input f cs = none ↔ ∀ c ∈ cs, processChunk input f c = none := by
  unfold workerError
  exact List.findSome?_eq_none_iff

/-- C3: for any assignment of the claimed chunks to workers (listed in the
order the failure slot serializes them), if no element invocation fails the
call returns normally; when the slot holds a failure it is one captured by
some worker and the call re-raises exactly that one, the first in
serialization order, the others being discarded; and when some element
invocation fails a failure is captured and re-raised — never silently
swallowed.  `pool_join` is evaluated only on the slot state after every
worker has finished its loop. -/
theorem join_failure_propagation {α β ε : Type} (input : Nat → α)
    (f : α → Except ε β) (assignment : List (List Chunk)) :
    ((∀ w ∈ assignment, ∀ c ∈ w, ∀ i ∈ Chunk.positions c, ∃ b, f (input i) = Except.ok b) →
        pool_join (failure_slot (assignment.map (workerError input f))) = Except.ok ())
    ∧ (∀ e, failure_slot (assignment.map (workerError input f)) = some e →
        pool_join (failure_slot (assignment.map (workerError input f))) = Except.error e
        ∧ ∃ w ∈ assignment, workerError input f w = some e)
    ∧ ((∃ w ∈ assignment, ∃ c ∈ w, ∃ i ∈ Chunk.positions c,
          ∃ e, f (input i) = Except.error e) →
        ∃ e, failure_slot (assignment.map (workerError input f)) = some e
          ∧ pool_join (failure_slot (assignment.map (workerError input f))) = Except.error e) := by
  refine ⟨fun hok => ?_, fun e he => ?_, fun hfail => ?_⟩
  · have hnone : failure_slot (assignment.map (workerError input f)) = none := by
      unfold failure_slot
      rw [List.findSome?_eq_none_iff]
      intro o ho
      obtain ⟨w, hw, rfl⟩ := List.mem_map.mp ho
      show workerError input f w = none
      rw [workerError_eq_none_iff]
      intro c hc
      rw [processChunk_eq_none_iff]
      exact hok w hw c hc
    rw [hnone]
    rfl
  · rw [he]
    refine ⟨rfl, ?_⟩
    unfold failure_slot at he
    obtain ⟨o, ho, hoe⟩ := List.exists_of_findSome?_eq_some he
    obtain ⟨w, hw, rfl⟩ := List.mem_map.mp ho
    exact ⟨w, hw, hoe⟩
  · cases hslot : failure_slot (assignment.map (workerError input f)) with
    | some e => exact ⟨e, rfl, rfl⟩
    | none =>
      exfalso
      obtain ⟨w, hw, c, hc, i, hi, e, he⟩ := hfail
      unfold failure_slot at hslot
      rw [List.findSome?_eq_none_iff] at hslot
      have hwnone : id (workerError input f w) = none :=
        hslot _ (List.mem_map_of_mem _ hw)
      rw [id_eq, workerError_eq_none_iff] at hwnone
      obtain ⟨b, hb⟩ := (processChunk_eq_none_iff input f c).mp (hwnone c hc) i hi
      rw [he] at hb
      simp at hb

/-- Closed instance of `join_failure_propagation`: two workers over four
elements, the element function fails at logical element 1; the slot captures
that failure and the call re-raises it. -/
theorem join_failure_propagation_witness :
    (∃ w ∈ [[Chunk.mk 0 2 0], [Chunk.mk 2 4 2]], ∃ c ∈ w, ∃ i ∈ Chunk.positions c,
        ∃ e, (fun a => if a = 1 then Except.error "boom" else Except.ok a) ((fun j => j) i)
          = Except.error e)
    ∧ ∃ e, failure_slot ([[Chunk.mk 0 2 0], [Chunk.mk 2 4 2]].map
          (workerError (fun j => j)
            (fun a => if a = 1 then Except.error "boom" else Except.ok a))) = some e
        ∧ pool_join (failure_slot ([[Chunk.mk 0 2 0], [Chunk.mk 2 4 2]].map
            (workerError (fun j => j)
              (fun a => if a = 1 then Except.error "boom" else Except.ok a))))
          = Except.error e := by
  have hex : ∃ w ∈ [[Chunk.mk 0 2 0], [Chunk.mk 2 4 2]], ∃ c ∈ w, ∃ i ∈ Chunk.positions c,
      ∃ e, (fun a => if a = 1 then Except.error "boom" else Except.ok a) ((fun j => j) i)
        = Except.error e :=
    ⟨[Chunk.mk 0 2 0], by simp, Chunk.mk 0 2 0, by simp, 1, by decide, "boom", rfl⟩
  exact ⟨hex, (join_failure_propagation (fun j => j)
    (fun a => if a = 1 then Except.error "boom" else Except.ok a)
    [[Chunk.mk 0 2 0], [Chunk.mk 2 4 2]]).2.2 hex⟩

end Threadpool
